import Mathlib

/-!
Verification of the concurrent file-search program (`src/bin/file_search.rs`).

The development shallowly embeds the program:

* A filesystem snapshot is an `FSNode` tree: regular files, directories
  (with a listing that may fail wholly, or entry-by-entry), and `other`
  entries (symbolic links, special files, vanished paths) that the walker
  neither counts as files nor descends into — `WalkDir` runs with
  `follow_links(false)` and classifies entries by `file_type()`.
* A work item is a full path string paired with the node found there,
  mirroring the `PathBuf` work items of `root_work_items`.
* The rayon `par_bridge` pipeline of `search_files_include` is embedded as
  a fold over an interleaving of the per-item visit sequences; the
  interleaving (a `List Nat` schedule choosing which item's queue to pop)
  captures the scheduling nondeterminism of the shared atomic `hits`
  counter.  The two atomics `scanned` and `hits` become fields of the fold
  state.
* The TUI controller (`App`) becomes a record with explicit state
  transitions for `start_search`, `tick`, `select_next`, `select_prev`;
  the channel poll outcome (`try_recv`) is an explicit `RecvResult`
  argument, and wall-clock instants are abstracted as naturals.
-/

/-- Case-fold one string character-wise (embeds Rust `str::to_lowercase`). -/
def lowerStr (s : String) : String := ⟨s.data.map Char.toLower⟩

/-- Boolean check that `p` starts the character list `s`. -/
def leadsWith : List Char → List Char → Bool
  | [], _ => true
  | _ :: _, [] => false
  | p :: ps, c :: cs => p == c && leadsWith ps cs

/-- Boolean substring search over character lists. -/
def hasSub (pat : List Char) : List Char → Bool
  | [] => pat.isEmpty
  | c :: rest => leadsWith pat (c :: rest) || hasSub pat rest

/-- `strContains s pat` embeds Rust `s.contains(pat)`: plain substring
containment of `pat` in `s`. -/
def strContains (s pat : String) : Bool := hasSub pat.data s.data

mutual
/-- A snapshot of what sits at a filesystem path.

`dir entries` is a directory whose listing succeeds; each child is a name
paired with its node, where the node `errEntry` stands for a directory
entry the iterator reported as an error (skipped by `entries.flatten()` in
`root_work_items` and by `filter_map(Result::ok)` in the walker).
`dirFail` is a directory whose `read_dir` fails outright.  `other` is an
entry that is neither a regular file nor a directory (symbolic link,
special file, or a vanished path): `WalkDir` with `follow_links(false)`
does not descend it and its `file_type()` is not a file. -/
inductive FSNode where
  | file : FSNode
  | other : FSNode
  | errEntry : FSNode
  | dirFail : FSNode
  | dir (entries : FSEntries) : FSNode

/-- A directory listing: a sequence of named child nodes. -/
inductive FSEntries where
  | nil : FSEntries
  | cons (name : String) (node : FSNode) (rest : FSEntries) : FSEntries
end

deriving instance DecidableEq for FSNode

/-- A work item of the search: the full path text and the node there. -/
abbrev WorkItem := String × FSNode

mutual
/-- The regular files `WalkDir::new(path).follow_links(false)` visits, in
depth-first order, restricted by `filter(|e| e.file_type().is_file())` and
`filter_map(Result::ok)`: files are kept, `other`/error entries are
skipped, unreadable directories yield nothing below them. -/
def walkFiles (path : String) : FSNode → List String
  | .file => [path]
  | .other => []
  | .errEntry => []
  | .dirFail => []
  | .dir entries => walkEntries path entries

/-- Walk the children of a directory at `path`, in listing order. -/
def walkEntries (path : String) : FSEntries → List String
  | .nil => []
  | .cons name node rest =>
      walkFiles (path ++ "/" ++ name) node ++ walkEntries path rest
end

/-- The direct children a directory listing yields as work items: one per
entry whose read succeeded (`entries.flatten()` skips the error entries),
each at the joined path. -/
def readableChildren (parent : String) : FSEntries → List WorkItem
  | .nil => []
  | .cons name node rest =>
      match node with
      | .errEntry => readableChildren parent rest
      | _ => (parent ++ "/" ++ name, node) :: readableChildren parent rest

/-- Embeds `root_work_items`: a file root is its own single work item; a
directory root is partitioned into its readable direct children, falling
back to the root itself when that list is empty; anything else produces no
work items. -/
def root_work_items (root : WorkItem) : List WorkItem :=
  match root.2 with
  | .file => [root]
  | .other => []
  | .errEntry => []
  | .dirFail => [root]
  | .dir entries =>
      let items := readableChildren root.1 entries
      if items.isEmpty then [root] else items

/-- The sequence of file visits one work item performs: a file item is
tested directly, any other item is walked with `WalkDir`. -/
def visitsOf (item : WorkItem) : List String := walkFiles item.1 item.2

/-- All files visited by a list of work items, item by item: the regular
files reachable from the work items with symbolic links not followed. -/
def reachableFiles (items : List WorkItem) : List String :=
  (items.map visitsOf).flatten

/-- Pop the head of the `i`-th nonempty-or-not queue, if possible. -/
def popAt : List (List α) → Nat → Option (α × List (List α))
  | [], _ => none
  | [] :: _, 0 => none
  | (a :: as) :: qs, 0 => some (a, as :: qs)
  | q :: qs, n + 1 => (popAt qs n).map fun r => (r.1, q :: r.2)

/-- Merge the per-item queues under a schedule: each schedule entry picks
which queue yields its next element; when the schedule runs out (or picks
an empty queue) the remainder is flushed in order.  Every schedule
produces a permutation of the concatenation, and conversely every
interleaving of the queues arises from some schedule. -/
def interleave (qs : List (List α)) : List Nat → List α
  | [] => qs.flatten
  | i :: rest =>
      match popAt qs i with
      | none => interleave qs rest
      | some (a, qs') => a :: interleave qs' rest

/-- Result of one search (embeds `SearchOutput`). -/
structure SearchOutput where
  scanned : Nat
  matched : List String
deriving DecidableEq, Repr

/-- The shared state of the traversal: the two atomic counters and the
retained matches.  `hits` counts every match found; a match is retained
only when the counter's pre-increment value is below the cap. -/
structure TState where
  scanned : Nat
  hits : Nat
  acc : List String
deriving DecidableEq, Repr

/-- Whether a visited path matches the (already case-folded) query. -/
def hitTest (queryLower p : String) : Bool := strContains (lowerStr p) queryLower

/-- One file visit of the traversal: bump `scanned`; on a match bump
`hits` and retain the path when the pre-increment `hits` is below the cap. -/
def stepVisit (queryLower : String) (maxResults : Nat) (st : TState) (p : String) :
    TState :=
  if hitTest queryLower p then
    { scanned := st.scanned + 1
      hits := st.hits + 1
      acc := if st.hits < maxResults then st.acc ++ [p] else st.acc }
  else
    { st with scanned := st.scanned + 1 }

/-- Lexicographic comparison of character lists, by code point.  For
UTF-8 encoded text this agrees with the byte-wise lexicographic order the
Rust `sort_unstable` on `String` uses. -/
def lexLe : List Char → List Char → Bool
  | [], _ => true
  | _ :: _, [] => false
  | a :: as, b :: bs => if a < b then true else if b < a then false else lexLe as bs

/-- Lexicographic order on path text. -/
def pathLe (a b : String) : Prop := lexLe a.data b.data = true

instance : DecidableRel pathLe := fun a b =>
  inferInstanceAs (Decidable (lexLe a.data b.data = true))

/-- Rust `Vec::dedup`: collapse consecutive equal elements. -/
def dedupConsec [DecidableEq α] : List α → List α
  | [] => []
  | [a] => [a]
  | a :: b :: rest =>
      if a = b then dedupConsec (b :: rest) else a :: dedupConsec (b :: rest)

/-- The visit order of one run: expand the roots into work items, take
each item's visit sequence, and interleave them under the schedule. -/
def visitOrder (roots : List WorkItem) (sched : List Nat) : List String :=
  interleave ((roots.flatMap root_work_items).map visitsOf) sched

/-- Embeds `search_files_include`: expand roots into work items, visit
every file under the schedule's interleaving while maintaining the shared
counters and the cap, then sort the retained matches and remove
duplicates. -/
def search_files_include (query : String) (roots : List WorkItem)
    (maxResults : Nat) (sched : List Nat) : SearchOutput :=
  let st := (visitOrder roots sched).foldl
    (stepVisit (lowerStr query) maxResults) ⟨0, 0, []⟩
  { scanned := st.scanned
    matched := dedupConsec (List.insertionSort pathLe st.acc) }

/-- Which input box has keyboard focus. -/
inductive Focus where
  | query
  | root
  | results
deriving DecidableEq, Repr

/-- Outcome of the non-blocking `try_recv` poll on the session channel. -/
inductive RecvResult where
  | ok (output : SearchOutput) (baseScope : String)
  | empty
  | disconnected
deriving DecidableEq, Repr

/-- The TUI application state (embeds `App`).  `selected` is the list
selection of `results_state`; `hasRx` records whether a receiver for an
in-flight search is held; instants are abstracted as naturals. -/
structure App where
  query : String
  root : String
  focus : Focus
  status : String
  results : List String
  selected : Option Nat
  hasRx : Bool
  searching : Bool
  spinnerIdx : Nat
  startedAt : Option Nat
deriving DecidableEq, Repr

/-- Character-wise trim of surrounding whitespace (embeds `str::trim`). -/
def trimStr (s : String) : String :=
  ⟨((s.data.dropWhile Char.isWhitespace).reverse.dropWhile Char.isWhitespace).reverse⟩

def msgSearching : String := "Search đang chạy, đợi xíu nha..."

def msgEmptyQuery : String := "Query đang trống. Nhập text để search."

def msgNoRoot : String := "Không tìm thấy root hợp lệ để search."

def msgStarted : String := "Đã bắt đầu search đa luồng"

def msgDisconnected : String := "Search thread bị ngắt kết nối."

/-- Embeds `App::start_search` as a state transition.  `allRoots` is the
platform answer of `all_computer_roots` (used when the root box is blank)
and `now` the current instant.  Spawning the worker thread is modelled by
setting `hasRx`; the search itself is delivered later through `tick`. -/
def start_search (allRoots : List String) (now : Nat) (app : App) : App :=
  if app.searching then
    { app with status := msgSearching }
  else
    let query := trimStr app.query
    if query = "" then
      { app with status := msgEmptyQuery, results := [], selected := none }
    else
      let searchRoot := trimStr app.root
      let roots : List String := if searchRoot = "" then allRoots else [searchRoot]
      if roots = [] then
        { app with status := msgNoRoot, results := [], selected := none }
      else
        { app with
          hasRx := true
          searching := true
          spinnerIdx := 0
          startedAt := some now
          status := msgStarted }

/-- The completion status line (embeds the `Done: ...` `format!`). -/
def doneStatus (nResults nScanned : Nat) (baseScope : String) (elapsed : Nat) :
    String :=
  "Done: " ++ toString nResults ++ " kết quả / " ++ toString nScanned ++
    " file đã scan trong " ++ baseScope ++ " (" ++ toString elapsed ++ "s)"

/-- Embeds `App::tick`: a no-op unless searching; otherwise advance the
spinner and poll the channel, finishing the session on a received value or
on a disconnection and doing nothing on an empty poll. -/
def tick (recv : RecvResult) (now : Nat) (app : App) : App :=
  if app.searching then
    let app1 := { app with spinnerIdx := (app.spinnerIdx + 1) % 8 }
    if app1.hasRx then
      match recv with
      | .ok output baseScope =>
          let elapsed := match app1.startedAt with
            | some t => now - t
            | none => 0
          { app1 with
            results := output.matched
            selected := if output.matched = [] then none else some 0
            status := doneStatus output.matched.length output.scanned baseScope elapsed
            searching := false
            hasRx := false
            startedAt := none }
      | .empty => app1
      | .disconnected =>
          { app1 with
            searching := false
            hasRx := false
            startedAt := none
            status := msgDisconnected }
    else app1
  else app

/-- Embeds `App::select_next`: clamp at the last entry, no wraparound. -/
def select_next (app : App) : App :=
  if app.results = [] then
    { app with selected := none }
  else
    let i := app.selected.getD 0
    let next := if i + 1 ≥ app.results.length then i else i + 1
    { app with selected := some next }

/-- Embeds `App::select_prev`: clamp at index 0, no wraparound. -/
def select_prev (app : App) : App :=
  if app.results = [] then
    { app with selected := none }
  else
    let i := app.selected.getD 0
    let prev := if i = 0 then 0 else i - 1
    { app with selected := some prev }

/-! ### Order facts for the lexicographic path comparison -/

theorem lexLe_cons_iff {a b : Char} {as bs : List Char} :
    lexLe (a :: as) (b :: bs) = true ↔ a < b ∨ (a = b ∧ lexLe as bs = true) := by
  by_cases h1 : a < b
  · simp [lexLe, h1]
  · by_cases h2 : b < a
    · have hne : a ≠ b := fun e => absurd (e ▸ h2) (lt_irrefl a)
      simp [lexLe, h1, h2, hne]
    · have he : a = b := le_antisymm (not_lt.1 h2) (not_lt.1 h1)
      simp [lexLe, h1, h2, he]

theorem lexLe_refl : ∀ l : List Char, lexLe l l = true
  | [] => rfl
  | _ :: as => lexLe_cons_iff.2 (Or.inr ⟨rfl, lexLe_refl as⟩)

theorem lexLe_total : ∀ l1 l2 : List Char, lexLe l1 l2 = true ∨ lexLe l2 l1 = true
  | [], _ => Or.inl rfl
  | _ :: _, [] => Or.inr rfl
  | a :: as, b :: bs => by
      rcases lt_trichotomy a b with h | h | h
      · exact Or.inl (lexLe_cons_iff.2 (Or.inl h))
      · subst h
        rcases lexLe_total as bs with h' | h'
        · exact Or.inl (lexLe_cons_iff.2 (Or.inr ⟨rfl, h'⟩))
        · exact Or.inr (lexLe_cons_iff.2 (Or.inr ⟨rfl, h'⟩))
      · exact Or.inr (lexLe_cons_iff.2 (Or.inl h))

theorem lexLe_trans : ∀ {l1 l2 l3 : List Char},
    lexLe l1 l2 = true → lexLe l2 l3 = true → lexLe l1 l3 = true
  | [], _, _, _, _ => rfl
  | _ :: _, [], _, h1, _ => by simp [lexLe] at h1
  | _ :: _, _ :: _, [], _, h2 => by simp [lexLe] at h2
  | a :: as, b :: bs, c :: cs, h1, h2 => by
      rcases lexLe_cons_iff.1 h1 with hab | ⟨hab, t1⟩ <;>
        rcases lexLe_cons_iff.1 h2 with hbc | ⟨hbc, t2⟩
      · exact lexLe_cons_iff.2 (Or.inl (lt_trans hab hbc))
      · exact lexLe_cons_iff.2 (Or.inl (hbc ▸ hab))
      · exact lexLe_cons_iff.2 (Or.inl (hab ▸ hbc))
      · exact lexLe_cons_iff.2 (Or.inr ⟨hab.trans hbc, lexLe_trans t1 t2⟩)

theorem lexLe_antisymm : ∀ {l1 l2 : List Char},
    lexLe l1 l2 = true → lexLe l2 l1 = true → l1 = l2
  | [], [], _, _ => rfl
  | [], _ :: _, _, h2 => by simp [lexLe] at h2
  | _ :: _, [], h1, _ => by simp [lexLe] at h1
  | a :: as, b :: bs, h1, h2 => by
      rcases lexLe_cons_iff.1 h1 with hab | ⟨hab, t1⟩ <;>
        rcases lexLe_cons_iff.1 h2 with hba | ⟨hba, t2⟩
      · exact absurd hba (asymm hab)
      · exact absurd (hba ▸ hab) (lt_irrefl a)
      · exact absurd (hab ▸ hba) (lt_irrefl b)
      · rw [hab, lexLe_antisymm t1 t2]

instance : IsTotal String pathLe := ⟨fun a b => lexLe_total a.data b.data⟩

instance : IsTrans String pathLe := ⟨fun _ _ _ => lexLe_trans⟩

instance : IsRefl String pathLe := ⟨fun a => lexLe_refl a.data⟩

instance : IsAntisymm String pathLe :=
  ⟨fun _ _ h1 h2 => String.ext (lexLe_antisymm h1 h2)⟩

/-! ### Facts about consecutive deduplication -/

theorem dedupConsec_sublist [DecidableEq α] : ∀ l : List α, (dedupConsec l).Sublist l
  | [] => by simp [dedupConsec]
  | [a] => by simp [dedupConsec]
  | a :: b :: rest => by
      rw [dedupConsec]
      split
      · exact (dedupConsec_sublist (b :: rest)).cons a
      · exact (dedupConsec_sublist (b :: rest)).cons₂ a

theorem dedupConsec_pairwise : ∀ l : List String, List.Sorted pathLe l →
    List.Pairwise (fun a b => pathLe a b ∧ a ≠ b) (dedupConsec l)
  | [], _ => by simp [dedupConsec]
  | [a], _ => by simp [dedupConsec]
  | a :: b :: rest, h => by
      rw [List.sorted_cons] at h
      rw [dedupConsec]
      split
      · exact dedupConsec_pairwise (b :: rest) h.2
      · rename_i hne
        refine List.pairwise_cons.2 ⟨?_, dedupConsec_pairwise (b :: rest) h.2⟩
        intro x hx
        have hxmem : x ∈ b :: rest := (dedupConsec_sublist (b :: rest)).subset hx
        refine ⟨h.1 x hxmem, ?_⟩
        intro he
        rcases List.mem_cons.1 hxmem with rfl | hxr
        · exact hne he
        · have hbx : pathLe b x := List.rel_of_sorted_cons h.2 x hxr
          have hab : pathLe a b := h.1 b (List.mem_cons_self b rest)
          exact hne (antisymm hab (he ▸ hbx))

theorem dedupConsec_eq_self [DecidableEq α] : ∀ l : List α, l.Nodup → dedupConsec l = l
  | [], _ => rfl
  | [_], _ => rfl
  | a :: b :: rest, h => by
      have h' := List.nodup_cons.1 h
      have hne : a ≠ b := fun e => h'.1 (by rw [e]; exact List.mem_cons_self b rest)
      rw [dedupConsec, if_neg hne, dedupConsec_eq_self (b :: rest) h'.2]

/-! ### The interleavings of the work queues are permutations of their
concatenation -/

theorem popAt_perm : ∀ (qs : List (List α)) (i : Nat) (a : α) (qs' : List (List α)),
    popAt qs i = some (a, qs') → (a :: qs'.flatten).Perm qs.flatten
  | [], i, a, qs', h => by simp [popAt] at h
  | q :: qs, 0, a, qs', h => by
      match q, h with
      | c :: cs, h =>
          rw [popAt] at h
          obtain ⟨rfl, rfl⟩ : c = a ∧ cs :: qs = qs' := by
            simpa using h
          simp
  | q :: qs, n + 1, a, qs', h => by
      rw [popAt] at h
      cases hp : popAt qs n with
      | none => rw [hp] at h; simp at h
      | some r =>
          rw [hp] at h
          obtain ⟨rfl, rfl⟩ : r.1 = a ∧ q :: r.2 = qs' := by
            simpa using h
          have step1 : (q ++ r.1 :: r.2.flatten).Perm (q ++ qs.flatten) :=
            (popAt_perm qs n r.1 r.2 hp).append_left q
          have step2 : (r.1 :: (q ++ r.2.flatten)).Perm (q ++ qs.flatten) :=
            List.Perm.trans List.perm_middle.symm step1
          simpa using step2

theorem interleave_perm : ∀ (sched : List Nat) (qs : List (List α)),
    (interleave qs sched).Perm qs.flatten
  | [], qs => by simp [interleave]
  | i :: rest, qs => by
      rw [interleave]
      match hp : popAt qs i with
      | none => exact interleave_perm rest qs
      | some (a, qs') =>
          exact ((interleave_perm rest qs').cons a).trans (popAt_perm qs i a qs' hp)

theorem visitOrder_perm (roots : List WorkItem) (sched : List Nat) :
    (visitOrder roots sched).Perm (reachableFiles (roots.flatMap root_work_items)) :=
  interleave_perm sched ((roots.flatMap root_work_items).map visitsOf)

/-! ### Closed form of the traversal fold -/

theorem foldl_stepVisit (q : String) (maxResults : Nat) :
    ∀ (order : List String) (s h : Nat) (a : List String),
      order.foldl (stepVisit q maxResults) ⟨s, h, a⟩ =
        ⟨s + order.length,
         h + (order.filter (hitTest q)).length,
         a ++ (order.filter (hitTest q)).take (maxResults - h)⟩
  | [], s, h, a => by simp
  | p :: rest, s, h, a => by
      rw [List.foldl_cons]
      by_cases hm : hitTest q p
      · have hstep : stepVisit q maxResults ⟨s, h, a⟩ p =
            ⟨s + 1, h + 1, if h < maxResults then a ++ [p] else a⟩ := by
          simp [stepVisit, hm]
        rw [hstep, foldl_stepVisit q maxResults rest,
          List.filter_cons_of_pos hm]
        by_cases hcap : h < maxResults
        · rw [if_pos hcap]
          simp only [TState.mk.injEq, List.length_cons]
          refine ⟨by omega, by omega, ?_⟩
          have htake : maxResults - h = (maxResults - (h + 1)) + 1 := by omega
          rw [htake, List.take_succ_cons, List.append_assoc, List.singleton_append]
        · rw [if_neg hcap]
          simp only [TState.mk.injEq, List.length_cons]
          have h0 : maxResults - h = 0 := by omega
          have h1 : maxResults - (h + 1) = 0 := by omega
          rw [h0, h1]
          exact ⟨by omega, by omega, by simp⟩
      · have hstep : stepVisit q maxResults ⟨s, h, a⟩ p =
            ⟨s + 1, h, a⟩ := by
          simp [stepVisit, hm]
        rw [hstep, foldl_stepVisit q maxResults rest,
          List.filter_cons_of_neg hm]
        simp only [TState.mk.injEq, List.length_cons, and_true, true_and]
        omega

/-- Closed form of one search run: `scanned` is the number of file visits
and `matched` is the sorted deduplication of the first `maxResults`
matches of the visit order. -/
theorem search_files_include_eq (q : String) (roots : List WorkItem)
    (maxResults : Nat) (sched : List Nat) :
    search_files_include q roots maxResults sched =
      { scanned := (visitOrder roots sched).length
        matched := dedupConsec (List.insertionSort pathLe
          (((visitOrder roots sched).filter (hitTest (lowerStr q))).take maxResults)) } := by
  unfold search_files_include
  rw [foldl_stepVisit]
  simp

/-! ### Claim theorems: the search pipeline -/

/-- C1: for every non-empty query, every path in the `matched` list of
`search_files_include` case-insensitively contains the query as a plain
substring of its full path text, and is a regular file visited by the
traversal of the given work items (under any schedule). -/
theorem search_files_include_matched_sound
    (q : String) (roots : List WorkItem) (maxResults : Nat) (sched : List Nat)
    (_hq : q ≠ "") :
    ∀ p ∈ (search_files_include q roots maxResults sched).matched,
      strContains (lowerStr p) (lowerStr q) = true ∧
        p ∈ reachableFiles (roots.flatMap root_work_items) := by
  intro p hp
  rw [search_files_include_eq] at hp
  have h1 : p ∈ List.insertionSort pathLe
      (((visitOrder roots sched).filter (hitTest (lowerStr q))).take maxResults) :=
    (dedupConsec_sublist _).subset hp
  have h2 : p ∈ ((visitOrder roots sched).filter (hitTest (lowerStr q))).take maxResults :=
    (List.perm_insertionSort pathLe _).subset h1
  have h3 : p ∈ (visitOrder roots sched).filter (hitTest (lowerStr q)) :=
    List.mem_of_mem_take h2
  have h4 := List.mem_filter.1 h3
  exact ⟨h4.2, (visitOrder_perm roots sched).subset h4.1⟩

theorem search_files_include_matched_sound_witness :
    ("x" : String) ≠ "" ∧
    "x" ∈ (search_files_include "x" [("x", FSNode.file)] 1 []).matched ∧
    (strContains (lowerStr "x") (lowerStr "x") = true ∧
      "x" ∈ reachableFiles ([("x", FSNode.file)].flatMap root_work_items)) :=
  ⟨by decide, by decide,
    search_files_include_matched_sound "x" [("x", FSNode.file)] 1 []
      (by decide) "x" (by decide)⟩

/-- C3: the `matched` list of any run is sorted lexicographically by path
text, has no duplicates (even when supplied roots overlap), and never
exceeds `maxResults` entries. -/
theorem search_files_include_matched_sorted_nodup_le
    (q : String) (roots : List WorkItem) (maxResults : Nat) (sched : List Nat) :
    List.Sorted pathLe (search_files_include q roots maxResults sched).matched ∧
      (search_files_include q roots maxResults sched).matched.Nodup ∧
      (search_files_include q roots maxResults sched).matched.length ≤ maxResults := by
  rw [search_files_include_eq]
  dsimp only
  have hsorted : List.Sorted pathLe (List.insertionSort pathLe
      (((visitOrder roots sched).filter (hitTest (lowerStr q))).take maxResults)) :=
    List.sorted_insertionSort pathLe _
  have hpw := dedupConsec_pairwise _ hsorted
  refine ⟨hpw.imp (fun h => h.1), hpw.imp (fun h => h.2), ?_⟩
  have hd := (dedupConsec_sublist (List.insertionSort pathLe
      (((visitOrder roots sched).filter (hitTest (lowerStr q))).take maxResults))).length_le
  rw [List.length_insertionSort] at hd
  have ht := List.length_take_le maxResults
    ((visitOrder roots sched).filter (hitTest (lowerStr q)))
  omega

/-- C4: `scanned` equals the number of regular files the traversal of the
given work items visits (symbolic links not followed; overlapping items
contribute one visit per item), and is never below the number of matches
returned. -/
theorem search_files_include_scanned_exact
    (q : String) (roots : List WorkItem) (maxResults : Nat) (sched : List Nat) :
    (search_files_include q roots maxResults sched).scanned =
        (reachableFiles (roots.flatMap root_work_items)).length ∧
      (search_files_include q roots maxResults sched).matched.length ≤
        (search_files_include q roots maxResults sched).scanned := by
  rw [search_files_include_eq]
  dsimp only
  refine ⟨(visitOrder_perm roots sched).length_eq, ?_⟩
  have hd := (dedupConsec_sublist (List.insertionSort pathLe
      (((visitOrder roots sched).filter (hitTest (lowerStr q))).take maxResults))).length_le
  rw [List.length_insertionSort] at hd
  have ht := (List.take_sublist maxResults
    ((visitOrder roots sched).filter (hitTest (lowerStr q)))).length_le
  have hf := List.length_filter_le (hitTest (lowerStr q)) (visitOrder roots sched)
  omega

/-- Overlapping roots for the C2 counterexample: the directory `d` and
its own child `d/x1` both appear, so `d/x1` is visited twice. -/
def overlappingRoots : List WorkItem :=
  [("d", .dir (.cons "x1" .file .nil)), ("d/x1", .file), ("x2", .file), ("x3", .file)]

/-- C2 counterexample: three distinct files match and the cap is 2, yet
the run retains the duplicated visit of `d/x1` twice, deduplication
collapses them, and only one path is returned — not `max_results`. -/
theorem search_files_include_cap_cex :
    2 < (((reachableFiles (overlappingRoots.flatMap root_work_items)).filter
        (hitTest (lowerStr "x"))).dedup).length ∧
      (search_files_include "x" overlappingRoots 2 []).matched.length ≠ 2 := by
  decide

/-- C2 (amended): when no file is visited twice (work items do not
overlap) and the number of matching visits exceeds the cap, the `matched`
list has exactly `maxResults` entries while `scanned` still counts every
visited file. -/
theorem search_files_include_cap_exact_of_nodup
    (q : String) (roots : List WorkItem) (maxResults : Nat) (sched : List Nat)
    (hnd : (reachableFiles (roots.flatMap root_work_items)).Nodup)
    (hm : maxResults < ((reachableFiles (roots.flatMap root_work_items)).filter
        (hitTest (lowerStr q))).length) :
    (search_files_include q roots maxResults sched).matched.length = maxResults ∧
      (search_files_include q roots maxResults sched).scanned =
        (reachableFiles (roots.flatMap root_work_items)).length := by
  rw [search_files_include_eq]
  refine ⟨?_, (visitOrder_perm roots sched).length_eq⟩
  have hperm := visitOrder_perm roots sched
  have hfperm := hperm.filter (hitTest (lowerStr q))
  have hnd1 : (visitOrder roots sched).Nodup := hperm.nodup_iff.2 hnd
  have hnd2 : ((visitOrder roots sched).filter (hitTest (lowerStr q))).Nodup :=
    hnd1.filter _
  have hnd3 : (((visitOrder roots sched).filter (hitTest (lowerStr q))).take
      maxResults).Nodup :=
    List.Nodup.sublist (List.take_sublist _ _) hnd2
  have hnd4 : (List.insertionSort pathLe
      (((visitOrder roots sched).filter (hitTest (lowerStr q))).take
        maxResults)).Nodup :=
    (List.perm_insertionSort pathLe _).nodup_iff.2 hnd3
  rw [dedupConsec_eq_self _ hnd4, List.length_insertionSort, List.length_take,
    hfperm.length_eq]
  exact min_eq_left hm.le

/-- Disjoint single-file roots used by the C2 witness. -/
def plainRoots : List WorkItem := [("x1", .file), ("x2", .file), ("x3", .file)]

theorem search_files_include_cap_exact_of_nodup_witness :
    (reachableFiles (plainRoots.flatMap root_work_items)).Nodup ∧
    2 < ((reachableFiles (plainRoots.flatMap root_work_items)).filter
        (hitTest (lowerStr "x"))).length ∧
    ((search_files_include "x" plainRoots 2 []).matched.length = 2 ∧
      (search_files_include "x" plainRoots 2 []).scanned =
        (reachableFiles (plainRoots.flatMap root_work_items)).length) :=
  ⟨by decide, by decide,
    search_files_include_cap_exact_of_nodup "x" plainRoots 2 [] (by decide) (by decide)⟩

/-- Two matching files used by the C9 counterexample. -/
def twoFileRoots : List WorkItem := [("a1", .file), ("b1", .file)]

/-- C9 counterexample: with two matching files and a cap of one, which
match is retained depends on the order in which the workers hit the
shared counter, so two runs under different schedules return different
`matched` lists. -/
theorem search_files_include_schedule_cex :
    (search_files_include "1" twoFileRoots 1 [0]).matched ≠
      (search_files_include "1" twoFileRoots 1 [1]).matched := by
  decide

/-- C9 (amended): `scanned` is identical across any two runs of the same
search regardless of scheduling, and the `matched` lists are identical
whenever the total number of matching visits does not exceed the cap (so
no truncation at the cap occurs). -/
theorem search_files_include_schedule_invariant
    (q : String) (roots : List WorkItem) (maxResults : Nat)
    (sched1 sched2 : List Nat) :
    (search_files_include q roots maxResults sched1).scanned =
        (search_files_include q roots maxResults sched2).scanned ∧
      (((reachableFiles (roots.flatMap root_work_items)).filter
            (hitTest (lowerStr q))).length ≤ maxResults →
        (search_files_include q roots maxResults sched1).matched =
          (search_files_include q roots maxResults sched2).matched) := by
  constructor
  · simp only [search_files_include_eq]
    rw [(visitOrder_perm roots sched1).length_eq,
      (visitOrder_perm roots sched2).length_eq]
  · intro hle
    simp only [search_files_include_eq]
    have hp1 := (visitOrder_perm roots sched1).filter (hitTest (lowerStr q))
    have hp2 := (visitOrder_perm roots sched2).filter (hitTest (lowerStr q))
    have hl1 : ((visitOrder roots sched1).filter (hitTest (lowerStr q))).length ≤
        maxResults := by
      rw [hp1.length_eq]; exact hle
    have hl2 : ((visitOrder roots sched2).filter (hitTest (lowerStr q))).length ≤
        maxResults := by
      rw [hp2.length_eq]; exact hle
    rw [List.take_of_length_le hl1, List.take_of_length_le hl2]
    have hperm : (List.insertionSort pathLe
        ((visitOrder roots sched1).filter (hitTest (lowerStr q)))).Perm
          (List.insertionSort pathLe
            ((visitOrder roots sched2).filter (hitTest (lowerStr q)))) :=
      ((List.perm_insertionSort pathLe _).trans (hp1.trans hp2.symm)).trans
        (List.perm_insertionSort pathLe _).symm
    rw [List.eq_of_perm_of_sorted hperm (List.sorted_insertionSort pathLe _)
      (List.sorted_insertionSort pathLe _)]

/-- A single matching file used by the C9 witness. -/
def oneFileRoot : List WorkItem := [("a1", .file)]

theorem search_files_include_schedule_invariant_witness :
    ((reachableFiles (oneFileRoot.flatMap root_work_items)).filter
        (hitTest (lowerStr "a"))).length ≤ 5 ∧
    (search_files_include "a" oneFileRoot 5 []).matched =
      (search_files_include "a" oneFileRoot 5 [0]).matched :=
  ⟨by decide,
    (search_files_include_schedule_invariant "a" oneFileRoot 5 [] [0]).2 (by decide)⟩

/-! ### Claim theorems: work partitioning -/

/-- C6: `root_work_items` returns the root itself for a file root; the
readable direct children for a directory whose listing yields at least
one readable entry; the root itself for a directory whose listing is
empty, entirely unreadable, or fails; and nothing for a root that is
neither an existing file nor an existing directory. -/
theorem root_work_items_cases (p : String) (n : FSNode) :
    (n = .file → root_work_items (p, n) = [(p, n)]) ∧
    (∀ entries, n = .dir entries → readableChildren p entries ≠ [] →
        root_work_items (p, n) = readableChildren p entries) ∧
    (∀ entries, n = .dir entries → readableChildren p entries = [] →
        root_work_items (p, n) = [(p, n)]) ∧
    (n = .dirFail → root_work_items (p, n) = [(p, n)]) ∧
    ((n = .other ∨ n = .errEntry) → root_work_items (p, n) = []) := by
  refine ⟨?_, ?_, ?_, ?_, ?_⟩
  · rintro rfl; rfl
  · rintro entries rfl hne
    simp [root_work_items, List.isEmpty_iff, hne]
  · rintro entries rfl hemp
    simp [root_work_items, List.isEmpty_iff, hemp]
  · rintro rfl; rfl
  · rintro (rfl | rfl) <;> rfl

theorem root_work_items_cases_witness :
    root_work_items ("f", .file) = [("f", .file)] ∧
    root_work_items ("d", .dir (.cons "c" .file .nil)) =
      readableChildren "d" (.cons "c" .file .nil) ∧
    root_work_items ("e", .dir (.cons "c" .errEntry .nil)) =
      [("e", .dir (.cons "c" .errEntry .nil))] ∧
    root_work_items ("g", .dirFail) = [("g", .dirFail)] ∧
    root_work_items ("s", .other) = [] :=
  ⟨(root_work_items_cases "f" .file).1 rfl,
   (root_work_items_cases "d" (.dir (.cons "c" .file .nil))).2.1 _ rfl (by decide),
   (root_work_items_cases "e" (.dir (.cons "c" .errEntry .nil))).2.2.1 _ rfl (by decide),
   (root_work_items_cases "g" .dirFail).2.2.2.1 rfl,
   (root_work_items_cases "s" .other).2.2.2.2 (Or.inl rfl)⟩

/-! ### Claim theorems: the session controller and the shell -/

/-- C7: calling `start_search` while a search is already running only
replaces the status with the already-in-progress message; the receiver,
results, selection, timestamps and flags are untouched, so at most one
search session is in flight. -/
theorem start_search_already_running (allRoots : List String) (now : Nat)
    (app : App) (h : app.searching = true) :
    start_search allRoots now app = { app with status := msgSearching } := by
  simp [start_search, h]

/-- An app with a search in flight, for the C7 witness. -/
def busyApp : App :=
  { query := "report", root := "", focus := .query, status := "running",
    results := ["kept"], selected := some 0, hasRx := true,
    searching := true, spinnerIdx := 2, startedAt := some 5 }

theorem start_search_already_running_witness :
    busyApp.searching = true ∧
    start_search ["/"] 9 busyApp = { busyApp with status := msgSearching } :=
  ⟨rfl, start_search_already_running ["/"] 9 busyApp rfl⟩

/-- C5 (amended): starting a search with a whitespace-only query while
idle does not start a search: the status reports the empty query, and the
visible result list is cleared and its selection reset (rather than left
unchanged). -/
theorem start_search_empty_query (allRoots : List String) (now : Nat)
    (app : App) (h1 : app.searching = false) (h2 : trimStr app.query = "") :
    start_search allRoots now app =
      { app with status := msgEmptyQuery, results := [], selected := none } := by
  simp [start_search, h1, h2]

/-- An idle app with a whitespace query and old visible results. -/
def idleApp : App :=
  { query := " ", root := "", focus := .query, status := "init",
    results := ["old"], selected := some 0, hasRx := false,
    searching := false, spinnerIdx := 3, startedAt := none }

/-- C5 counterexample: with a whitespace-only query and prior visible
results, `start_search` clears the result list, so it does not remain
unchanged from its prior state. -/
theorem start_search_empty_query_cex :
    (start_search ["/"] 0 idleApp).results ≠ idleApp.results := by decide

theorem start_search_empty_query_witness :
    idleApp.searching = false ∧ trimStr idleApp.query = "" ∧
    start_search ["/"] 7 idleApp =
      { idleApp with status := msgEmptyQuery, results := [], selected := none } :=
  ⟨rfl, by decide, start_search_empty_query ["/"] 7 idleApp rfl (by decide)⟩

/-- C8: a poll that observes the sender dropped without a value advances
the spinner, clears the running flag, receiver and start timestamp, sets
the disconnection status, leaves the visible result list and selection
exactly as they were, and returns the controller to the idle state. -/
theorem tick_disconnected_resets (now : Nat) (app : App)
    (h1 : app.searching = true) (h2 : app.hasRx = true) :
    tick .disconnected now app =
      { app with spinnerIdx := (app.spinnerIdx + 1) % 8,
                 searching := false, hasRx := false, startedAt := none,
                 status := msgDisconnected } ∧
    (tick .disconnected now app).results = app.results ∧
    (tick .disconnected now app).searching = false := by
  refine ⟨?_, ?_, ?_⟩ <;> simp [tick, h1, h2]

/-- An app waiting on a worker, for the C8 witness. -/
def pollApp : App :=
  { query := "q", root := "/tmp", focus := .results, status := "started",
    results := ["before"], selected := some 0, hasRx := true,
    searching := true, spinnerIdx := 6, startedAt := some 11 }

theorem tick_disconnected_resets_witness :
    pollApp.searching = true ∧ pollApp.hasRx = true ∧
    (tick .disconnected 20 pollApp =
        { pollApp with spinnerIdx := (pollApp.spinnerIdx + 1) % 8,
                       searching := false, hasRx := false, startedAt := none,
                       status := msgDisconnected } ∧
      (tick .disconnected 20 pollApp).results = pollApp.results ∧
      (tick .disconnected 20 pollApp).searching = false) :=
  ⟨rfl, rfl, tick_disconnected_resets 20 pollApp rfl rfl⟩

/-- C10: provided the prior selection is within the result list (or
absent), `select_next` and `select_prev` keep the result list unchanged;
on an empty list they clear the selection; on a non-empty list the new
selection stays within bounds, `select_next` at the last entry stays at
the last entry, and `select_prev` at index 0 stays at 0. -/
theorem select_moves_stay_in_bounds (app : App)
    (h : ∀ i, app.selected = some i → i < app.results.length) :
    ((select_next app).results = app.results ∧
      (select_prev app).results = app.results) ∧
    (app.results = [] →
      (select_next app).selected = none ∧ (select_prev app).selected = none) ∧
    (app.results ≠ [] →
      (∃ j, (select_next app).selected = some j ∧ j < app.results.length) ∧
      (∃ j, (select_prev app).selected = some j ∧ j < app.results.length)) ∧
    (app.results ≠ [] → app.selected = some (app.results.length - 1) →
      (select_next app).selected = some (app.results.length - 1)) ∧
    (app.selected = some 0 → app.results ≠ [] →
      (select_prev app).selected = some 0) := by
  by_cases hres : app.results = []
  · simp [select_next, select_prev, hres]
  · have hlen : 0 < app.results.length := List.length_pos.2 hres
    refine ⟨⟨?_, ?_⟩, ?_, ?_, ?_, ?_⟩
    · simp [select_next, hres]
    · simp [select_prev, hres]
    · intro he; exact absurd he hres
    · intro _
      cases hsel : app.selected with
      | none =>
          constructor
          · simp only [select_next, if_neg hres, hsel]
            split
            · exact ⟨0, rfl, hlen⟩
            · exact ⟨1, rfl, by omega⟩
          · refine ⟨0, ?_, hlen⟩
            simp [select_prev, hres, hsel]
      | some i =>
          have hi : i < app.results.length := h i hsel
          constructor
          · simp only [select_next, if_neg hres, hsel, Option.getD_some]
            split
            · exact ⟨i, rfl, hi⟩
            · exact ⟨i + 1, rfl, by omega⟩
          · simp only [select_prev, if_neg hres, hsel, Option.getD_some]
            split
            · exact ⟨0, rfl, hlen⟩
            · exact ⟨i - 1, rfl, by omega⟩
    · intro _ hsel
      have hi : app.results.length - 1 < app.results.length := by omega
      simp only [select_next, if_neg hres, hsel, Option.getD_some]
      rw [if_pos (by omega)]
    · intro hsel _
      simp [select_prev, hres, hsel]

/-- An app with two results and the last one selected. -/
def selApp : App :=
  { query := "", root := "", focus := .results, status := "",
    results := ["a", "b"], selected := some 1, hasRx := false,
    searching := false, spinnerIdx := 0, startedAt := none }

theorem select_moves_stay_in_bounds_witness :
    selApp.results ≠ [] ∧
    ((∃ j, (select_next selApp).selected = some j ∧ j < selApp.results.length) ∧
      (∃ j, (select_prev selApp).selected = some j ∧ j < selApp.results.length)) :=
  ⟨by decide,
    (select_moves_stay_in_bounds selApp
      (fun i hi => by simp [selApp] at hi ⊢; omega)).2.2.1 (by decide)⟩
